import Mathlib

/-!
# Verification of the `src lsif upload` pipeline (src/cmd/src/lsif_upload.go)

A shallow embedding of the upload command's pure logic, and proofs of the
specified properties.  Go strings are embedded as `List Char`; the Go
standard-library helpers the code calls (`strings.Split`, `strings.TrimPrefix`,
`strings.TrimSuffix`, `strings.HasPrefix`, `strings.Contains`,
`strings.ToLower`, `path/filepath.Clean`, `net/url.Parse`,
`encoding/base64.URLEncoding`) are embedded alongside, faithful to their
documented behaviour on the inputs the command feeds them.
-/

set_option maxRecDepth 100000

deriving instance DecidableEq for Except

namespace LsifUpload

/-- Go strings, embedded as lists of characters. -/
abbrev GoStr := List Char

/-- Embedding of Go `strings.HasPrefix` (via `List.isPrefixOf`). -/
def startsWith (s pre : GoStr) : Bool := pre.isPrefixOf s

/-- Embedding of Go `strings.HasSuffix`. -/
def endsWith (s suf : GoStr) : Bool := suf.isSuffixOf s

/-- Embedding of Go `strings.TrimPrefix`. -/
def trimPre (s pre : GoStr) : GoStr :=
  if startsWith s pre then s.drop pre.length else s

/-- Embedding of Go `strings.TrimSuffix`. -/
def trimSuf (s suf : GoStr) : GoStr :=
  if endsWith s suf then s.take (s.length - suf.length) else s

/-- Embedding of Go `strings.Split(s, sep)` for a one-character separator
(the only form the command uses: split on a colon). -/
def goSplit (sep : Char) : GoStr → List GoStr
  | [] => [[]]
  | c :: cs =>
    if c = sep then [] :: goSplit sep cs
    else
      match goSplit sep cs with
      | [] => [[c]]
      | s :: rest => (c :: s) :: rest

/-- Embedding of Go `strings.Join` for a one-character separator. -/
def goJoin (sep : Char) : List GoStr → GoStr
  | [] => []
  | [s] => s
  | s :: rest => s ++ sep :: goJoin sep rest

/-- Embedding of Go `strings.ToLower` (ASCII case folding suffices for the
command's inputs). -/
def goToLower (s : GoStr) : GoStr := s.map Char.toLower

/-- Embedding of Go `strings.Contains` (substring containment). -/
def containsSubstr (s pat : GoStr) : Bool :=
  (List.range (s.length + 1)).any fun i => startsWith (s.drop i) pat

/-! ## A model of `net/url.Parse`

`parseRemoteURL` (lsif_upload.go lines 300-314) delegates non-SSH remotes to
the standard library's `net/url.Parse` and then reads back `Hostname()` and
`Path`.  The model below follows the library's parsing algorithm (scheme
extraction, authority splitting, port validation, port stripping) on the class
of inputs the command meets: URLs without query, fragment, percent-escapes or
IPv6 literals.  The theorems' hypotheses keep all inputs inside that class. -/

def isAsciiAlpha (c : Char) : Bool :=
  (97 ≤ c.toNat && c.toNat ≤ 122) || (65 ≤ c.toNat && c.toNat ≤ 90)

def isAsciiDigit (c : Char) : Bool := 48 ≤ c.toNat && c.toNat ≤ 57

/-- Characters allowed in a URL scheme after the first (which must be a
letter): letters, digits, plus, minus, dot. -/
def isSchemeChar (c : Char) : Bool :=
  isAsciiAlpha c || isAsciiDigit c || c = '+' || c = '-' || c = '.'

/-- ASCII control bytes; `net/url.Parse` rejects URLs containing one. -/
def isCtlChar (c : Char) : Bool := c.toNat < 32 || c.toNat = 127

/-- Scheme extraction, following `net/url`'s `getScheme`: scan while the
characters are legal scheme characters; on a colon return the scheme and the
remainder (a colon first is the missing-protocol-scheme error, `none` here);
on any other character, or if the first character is not a letter, the whole
input is the remainder and there is no scheme. -/
def getSchemeAux (orig : GoStr) (acc : GoStr) : GoStr → Option (GoStr × GoStr)
  | [] => some ([], orig)
  | c :: cs =>
    if c = ':' then
      if acc = [] then none else some (acc.reverse, cs)
    else if isAsciiAlpha c then getSchemeAux orig (c :: acc) cs
    else if acc ≠ [] ∧ (isAsciiDigit c || c = '+' || c = '-' || c = '.') then
      getSchemeAux orig (c :: acc) cs
    else some ([], orig)

def getScheme (u : GoStr) : Option (GoStr × GoStr) := getSchemeAux u [] u

/-- The host portion of an authority: everything after the last `@`
(`net/url` treats the part before it as userinfo). -/
def afterLastAt (auth : GoStr) : GoStr :=
  match goSplit '@' auth with
  | [] => auth
  | parts => parts.getLastD auth

/-- Model of net/url validOptionalPort: empty, or a colon followed by digits. -/
def validOptionalPort (port : GoStr) : Bool :=
  match port with
  | [] => true
  | c :: rest => c = ':' && rest.all isAsciiDigit

/-- Index (from the end) splitting of the host at its last colon, as
`net/url`'s `parseHost`/`splitHostPort` do: the candidate port is the suffix
from the last colon on. -/
def splitLastColon (host : GoStr) : GoStr × GoStr :=
  match goSplit ':' host with
  | [] => (host, [])
  | [_] => (host, [])
  | parts => (goJoin ':' (parts.dropLast), ':' :: parts.getLastD [])

/-- Authority parsing: strip userinfo, then validate the optional port as
`net/url.parseHost` does (bracketed IPv6 hosts are outside the modelled
class). Returns the `Host` field (still including any port). -/
def parseAuthority (auth : GoStr) : Option GoStr :=
  let host := afterLastAt auth
  if ':' ∈ host then
    let (_, port) := splitLastColon host
    if validOptionalPort port then some host else none
  else some host

/-- The fields of a parsed URL the command reads back. -/
structure GoURL where
  scheme : GoStr
  host : GoStr
  path : GoStr
  deriving DecidableEq, Repr

/-- Model of `net/url.Parse` on the class of inputs described above:
control-character check, scheme extraction, `scheme:nonslash` handled as an
opaque URL (empty host and path), `//authority/path` splitting, and otherwise
a bare path. -/
def urlParse (u : GoStr) : Option GoURL :=
  if u.any isCtlChar then none
  else
    match getScheme u with
    | none => none
    | some (sch, rest) =>
      if sch ≠ [] && !startsWith rest ['/'] then some ⟨sch, [], []⟩
      else if startsWith rest ['/', '/'] then
        let ar := rest.drop 2
        let auth := ar.takeWhile (· ≠ '/')
        let path := ar.dropWhile (· ≠ '/')
        match parseAuthority auth with
        | none => none
        | some host => some ⟨sch, host, path⟩
      else some ⟨sch, [], rest⟩

/-- Model of net/url stripPort, used by URL.Hostname: no colon means the
whole host; a bracketed host is trimmed to the bracket contents; otherwise
everything before the last colon. -/
def hostnameOf (host : GoStr) : GoStr :=
  if ':' ∈ host then
    if ']' ∈ host then trimPre (host.takeWhile (· ≠ ']')) ['[']
    else (splitLastColon host).1
  else host

/-! ## `parseRemoteURL` (lsif_upload.go lines 300-314) -/

/-- Embedding of `parseRemoteURL`: `git@`-prefixed remotes are split on the
colon (exactly two parts required) yielding `host/path` with the `git@`
prefix, a `.git` suffix and a leading slash trimmed; all other remotes go
through the URL parser yielding `Hostname() + TrimSuffix(Path, ".git")`.
Errors carry the offending input (Go wraps it in an "unrecognized remote
URL" message). -/
def parseRemoteURL (u : GoStr) : Except GoStr GoStr :=
  if startsWith u ("git@".toList) then
    match goSplit ':' u with
    | [a, b] =>
      .ok (trimPre a ("git@".toList) ++ '/' :: trimPre (trimSuf b (".git".toList)) ['/'])
    | _ => .error u
  else
    match urlParse u with
    | none => .error u
    | some url => .ok (hostnameOf url.host ++ trimSuf url.path (".git".toList))

/-! ## A model of `path/filepath.Clean` (Unix rules)

The handler normalizes the `-root` value with `filepath.Clean`
(lsif_upload.go line 134).  `Clean` is the classic lexical cleaner: drop
empty and dot segments, resolve `..` against preceding segments, keep
leading `..`s of a relative path, keep the root of an absolute path, return
a dot for an empty result. -/

/-- One pass of `Clean`'s segment processing.  `out` is the processed stack,
topmost segment first (so the final path is `out.reverse`). -/
def cleanSegsAux (rooted : Bool) : List GoStr → List GoStr → List GoStr
  | out, [] => out
  | out, seg :: rest =>
    if seg = [] ∨ seg = ['.'] then cleanSegsAux rooted out rest
    else if seg = ['.', '.'] then
      match out with
      | [] => if rooted then cleanSegsAux rooted [] rest
              else cleanSegsAux rooted [['.', '.']] rest
      | top :: outTail =>
        if top = ['.', '.'] then cleanSegsAux rooted (seg :: out) rest
        else cleanSegsAux rooted outTail rest
    else cleanSegsAux rooted (seg :: out) rest

/-- Embedding of `filepath.Clean` for Unix paths. -/
def clean (p : GoStr) : GoStr :=
  match p with
  | [] => ['.']
  | c :: _ =>
    let rooted := c = '/'
    let out := (cleanSegsAux rooted [] (goSplit '/' p)).reverse
    if rooted then '/' :: goJoin '/' out
    else if out = [] then ['.']
    else goJoin '/' out

/-! ## Root normalization (lsif_upload.go lines 111-141) -/

/-- Embedding of `isFlagSet` (lsif_upload.go lines 24-32): `flag.FlagSet.Visit`
walks exactly the flags that were set on the command line (`visited` here),
and the function reports whether `name` is among them. -/
def isFlagSet (visited : List GoStr) (name : GoStr) : Bool :=
  visited.any fun f => f = name

/-- Embedding of the root-normalization step (lines 134-141): clean the root,
abort when the cleaned value begins with the two characters `..` (the code's
escape check is a string-prefix test), collapse a cleaned `.` or `/` to the
empty string.  The error carries the cleaned root printed in the
"-root is outside the repository" diagnostic. -/
def normalizeRoot (root : GoStr) : Except GoStr GoStr :=
  let c := clean root
  if startsWith c ['.', '.'] then .error c
  else .ok (if c = ['.'] ∨ c = ['/'] then [] else c)

/-- Embedding of lines 111-141 as a whole: when the `root` flag was not set
on the command line the root is derived from the workspace (the directory of
the dump file relative to the VCS top level, supplied here as `derivedDir`);
an explicitly set flag is used as given, even when empty.  Either way the
result is normalized. -/
def resolveRoot (visited : List GoStr) (rootArg derivedDir : GoStr) :
    Except GoStr GoStr :=
  normalizeRoot (cond (isFlagSet visited ("root".toList)) rootArg derivedDir)

/-- A root value beginning with a parent-directory traversal segment: either
exactly `..` or starting with `../`. -/
def leadingDotDotSeg (r : GoStr) : Bool :=
  r = ['.', '.'] || startsWith r ("../".toList)

/-! ## Query-string construction (lsif_upload.go lines 149-160)

The code adds `repository` and `commit` to the `url.Values` unconditionally
and `github_token`, `root` and `indexerName` only when non-empty;
`Values.Encode` then emits every stored key, empty values included. -/

/-- Embedding of the query construction: the key/value pairs stored in the
`url.Values`, in the order the code adds them. -/
def buildQuery (repo commit token root idx : GoStr) : List (GoStr × GoStr) :=
  [(("repository".toList), repo), (("commit".toList), commit)]
    ++ (if token ≠ [] then [(("github_token".toList), token)] else [])
    ++ (if root ≠ [] then [(("root".toList), root)] else [])
    ++ (if idx ≠ [] then [(("indexerName".toList), idx)] else [])

/-- The keys present in a constructed query. -/
def queryKeys (q : List (GoStr × GoStr)) : List GoStr := q.map Prod.fst

/-- Lines 134-160 in sequence: root normalization happens before the query
(and hence the request and any network activity) is built, so a validation
failure short-circuits the run. -/
def buildUploadRequest (repo commit token idx root : GoStr) :
    Except GoStr (List (GoStr × GoStr)) :=
  (normalizeRoot root).map fun r => buildQuery repo commit token r idx

/-! ## Response interpretation (lsif_upload.go lines 217-262)

After the HTTP exchange the handler first drains the compressor's error
channel, then classifies non-2xx statuses, then unmarshals the 2xx body into
a struct with a single string field tagged `id`, and finally builds the
status-page URL from the endpoint, the repository name and the
base64-URL-encoded type-tagged upload id. -/

/-- JSON values, the domain of the external `encoding/json` decoder.  The
body handed to `json.Unmarshal` is modelled by its parse result: `none` for
a body that is not valid JSON, `some j` otherwise. -/
inductive Json where
  | null
  | bool (b : Bool)
  | num (n : Int)
  | str (s : GoStr)
  | arr (elems : List Json)
  | obj (fields : List (GoStr × Json))

/-- Go's `encoding/json` field matching is case-insensitive (exact matches
are preferred, but both resolve to the same sole field here). -/
def jsonKeyMatchesId (k : GoStr) : Bool := goToLower k = ("id".toList)

/-- Embedding of `json.Unmarshal(body, &struct{ ID string json:"id" })`:
a JSON `null` leaves the struct zeroed; an object is decoded field by field,
later `id` members overwriting earlier ones, a `null` member leaving the
value unchanged, and any non-string non-null `id` member being a type error;
any other top level is a type error.  Unknown fields are ignored. -/
def unmarshalPayload : Json → Except Unit GoStr
  | .null => .ok []
  | .obj fields =>
    fields.foldl
      (fun acc kv =>
        match acc with
        | .error e => .error e
        | .ok cur =>
          if jsonKeyMatchesId kv.1 then
            match kv.2 with
            | .str s => .ok s
            | .null => .ok cur
            | _ => .error ()
          else .ok cur)
      (.ok [])
  | _ => .error ()

/-- Whether a body (as a parse result) is accepted by the payload decoder. -/
def payloadDecodes (p : Option Json) : Bool :=
  match p with
  | none => false
  | some j => (unmarshalPayload j).toBool

/-- Whether a JSON value is an object with an `id` member (exact key). -/
def jsonHasIdField : Json → Bool
  | .obj fields => fields.any fun kv => kv.1 = ("id".toList)
  | _ => false

/-- The base64 URL alphabet (`encoding/base64.URLEncoding`). -/
def base64urlAlphabet : GoStr :=
  "ABCDEFGHIJKLMNOPQRSTUVWXYZabcdefghijklmnopqrstuvwxyz0123456789-_".toList

def base64urlDigit (n : Nat) : Char := base64urlAlphabet.getD n 'A'

/-- Embedding of `base64.URLEncoding.EncodeToString`: standard padded base64
over the URL alphabet. -/
def base64url : List Nat → GoStr
  | [] => []
  | [b1] =>
    [base64urlDigit (b1 / 4), base64urlDigit (b1 % 4 * 16), '=', '=']
  | [b1, b2] =>
    [base64urlDigit (b1 / 4), base64urlDigit (b1 % 4 * 16 + b2 / 16),
     base64urlDigit (b2 % 16 * 4), '=']
  | b1 :: b2 :: b3 :: rest =>
    [base64urlDigit (b1 / 4), base64urlDigit (b1 % 4 * 16 + b2 / 16),
     base64urlDigit (b2 % 16 * 4 + b3 / 64), base64urlDigit (b3 % 64)]
      ++ base64url rest

/-- The type-tagged literal of line 249: `LSIFUpload:"<id>"`, as bytes (the
command's ids are ASCII, so byte values are the character codes). -/
def uploadTagBytes (id : GoStr) : List Nat :=
  (("LSIFUpload:\"".toList) ++ id ++ ['"']).map Char.toNat

/-- The encoded artifact reference (`uploadID` at line 249). -/
def encodeUploadId (id : GoStr) : GoStr := base64url (uploadTagBytes id)

/-- The status-page URL of line 250: the endpoint, a slash, the repository
name, the fixed settings path, and the encoded upload id. -/
def mkUploadURL (endpoint repo id : GoStr) : GoStr :=
  endpoint ++ '/' :: repo
    ++ ("/-/settings/code-intelligence/lsif-uploads/".toList)
    ++ encodeUploadId id

/-- The failure classifications of the spec's error taxonomy that the
response phase can produce. -/
inductive FailureClass where
  | compressorError
  | parseError
  | authScopeError
  | authError
  | remoteError
  deriving DecidableEq, Repr

/-- The outcome of the response phase: success carries the upload id and the
status-page URL, failure a classification and a message. -/
inductive UploadOutcome where
  | success (id : GoStr) (statusPageURL : GoStr)
  | failure (cls : FailureClass) (msg : GoStr)
  deriving DecidableEq, Repr

def UploadOutcome.isSuccess : UploadOutcome → Bool
  | .success _ _ => true
  | .failure _ _ => false

/-- The fixed message of line 231 (the `github_token` guidance). -/
def githubTokenMsg : GoStr :=
  ("error: you must provide -github-token=TOKEN, where TOKEN is a GitHub personal access token with \x27repo\x27 or \x27public_repo\x27 scope".toList)

/-- The phrase searched for, case-insensitively, in a 401 body (line 230). -/
def mustProvidePhrase : GoStr := "must provide github_token".toList

/-- The 2xx arm (lines 242-262): a body that does not unmarshal is a parse
failure; otherwise the outcome is success with the status-page URL. -/
def interpretSuccessBody (endpoint repo : GoStr) (p : Option Json) :
    UploadOutcome :=
  match p with
  | none => .failure .parseError []
  | some j =>
    match unmarshalPayload j with
    | .error _ => .failure .parseError []
    | .ok id => .success id (mkUploadURL endpoint repo id)

/-- Embedding of the response phase (lines 217-262), in the code's order:
the compressor's error channel is drained first and any error there is the
outcome regardless of the response; then non-2xx statuses are classified
(401 with the `github_token` phrase, 401 on a terminal, anything else);
then the 2xx body is decoded. -/
def interpretResponse (endpoint repo : GoStr) (chErr : Option GoStr)
    (status : Nat) (body : GoStr) (parsed : Option Json) (tty : Bool) :
    UploadOutcome :=
  match chErr with
  | some e => .failure .compressorError e
  | none =>
    if status < 200 ∨ 300 ≤ status then
      if status = 401 ∧ containsSubstr (goToLower body) mustProvidePhrase then
        .failure .authScopeError githubTokenMsg
      else if status = 401 ∧ tty then
        .failure .authError body
      else
        .failure .remoteError body
    else interpretSuccessBody endpoint repo parsed

/-! ## The streaming compressor (lsif_upload.go lines 273-290) -/

/-- CRC-32 (IEEE polynomial, reflected form), the checksum the gzip framing
carries in its trailer.  One bit step of the division. -/
def crc32Bit (r : Nat) : Nat :=
  if r % 2 = 1 then (r / 2) ^^^ 0xEDB88320 else r / 2

/-- CRC-32 update by one byte. -/
def crc32Byte (r b : Nat) : Nat :=
  crc32Bit (crc32Bit (crc32Bit (crc32Bit (crc32Bit (crc32Bit (crc32Bit (crc32Bit (r ^^^ b % 256))))))))

/-- CRC-32 of a byte sequence. -/
def crc32 (bs : List Nat) : Nat :=
  0xFFFFFFFF ^^^ bs.foldl crc32Byte 0xFFFFFFFF

/-- Two-byte little-endian encoding. -/
def le16 (n : Nat) : List Nat := [n % 256, n / 256 % 256]

/-- Four-byte little-endian encoding. -/
def le32 (n : Nat) : List Nat :=
  [n % 256, n / 256 % 256, n / 2 ^ 16 % 256, n / 2 ^ 24 % 256]

/-- Reading back a two-byte little-endian value. -/
def readLe16 : List Nat → Option (Nat × List Nat)
  | a :: b :: r => some (a + 256 * b, r)
  | _ => none

/-- Modelled from the spec: the DEFLATE body produced by the external
`compress/gzip` writer, which is not part of this repository.  The model
emits stored (uncompressed) blocks — a legal DEFLATE encoding — chunked at
the format's 16-bit block-length limit, each block carrying a final-block
flag, the length and its complement, and the raw bytes. -/
def deflateStoredAux : Nat → List Nat → List Nat
  | 0, _ => []
  | fuel + 1, xs =>
    if xs.length ≤ 65535 then
      1 :: (le16 xs.length ++ le16 (65535 - xs.length) ++ xs)
    else
      0 :: (le16 65535 ++ le16 0 ++ xs.take 65535
        ++ deflateStoredAux fuel (xs.drop 65535))

/-- The DEFLATE body for `xs`; the fuel bounds the number of blocks and
`xs.length + 1` always suffices. -/
def deflateStored (xs : List Nat) : List Nat :=
  deflateStoredAux (xs.length + 1) xs

/-- Modelled from the spec: the inverse reader for stored DEFLATE blocks.
`fuel` bounds the number of blocks; returns the decoded bytes and the
remainder of the stream. -/
def inflateStored : Nat → List Nat → Option (List Nat × List Nat)
  | 0, _ => none
  | _ + 1, [] => none
  | fuel + 1, b :: r =>
    match readLe16 r with
    | none => none
    | some (len, r1) =>
      match readLe16 r1 with
      | none => none
      | some (nlen, r2) =>
        if nlen ≠ 65535 - len then none
        else if r2.length < len then none
        else if b = 1 then some (r2.take len, r2.drop len)
        else if b = 0 then
          match inflateStored fuel (r2.drop len) with
          | some (d, rest) => some (r2.take len ++ d, rest)
          | none => none
        else none

/-- The fixed ten-byte gzip header (magic, DEFLATE method, no flags, zero
mtime, no extra flags, unknown OS). -/
def gzipHeader : List Nat := [31, 139, 8, 0, 0, 0, 0, 0, 0, 255]

/-- Modelled from the spec: the complete gzip stream for an input — header,
DEFLATE body, then the CRC-32 and input length (mod 2^32) trailer.  The
repository's `gzipReader` closes the gzip writer before the pipe, so the
consumer sees exactly this complete framing. -/
def gzipCompress (xs : List Nat) : List Nat :=
  gzipHeader ++ deflateStored xs ++ le32 (crc32 xs) ++ le32 xs.length

/-- Modelled from the spec: the matching decompressor — check the header,
inflate the body, and verify the trailer (checksum and length). -/
def gzipDecompress (s : List Nat) : Option (List Nat) :=
  if gzipHeader.isPrefixOf s then
    match inflateStored (s.length + 1) (s.drop 10) with
    | some (d, rest) =>
      if rest = le32 (crc32 d) ++ le32 d.length then some d else none
    | none => none
  else none

/-- Embedding of `gzipReader` (lines 273-290) in the error-free case: the
background worker copies the whole source through the gzip writer and closes
the writer before the pipe, so the readable side yields the complete
compressed stream; the error channel reports `none`.  (When the source
read fails, the channel instead carries that error — the response phase
takes it as the `chErr` input of `interpretResponse`.) -/
def gzipReaderModel (input : List Nat) : List Nat × Option GoStr :=
  (gzipCompress input, none)

/-! ## Helper lemmas about the string primitives -/

theorem startsWith_append (s t : GoStr) : startsWith (s ++ t) s = true := by
  induction s with
  | nil => cases t <;> rfl
  | cons c cs ih =>
    simp only [startsWith, List.cons_append, List.isPrefixOf] at ih ⊢
    simp [ih]

theorem trimPre_append (p s : GoStr) : trimPre (p ++ s) p = s := by
  simp [trimPre, startsWith_append, List.drop_left]

theorem endsWith_append (s t : GoStr) : endsWith (s ++ t) t = true := by
  simp only [endsWith]
  exact List.isSuffixOf_iff_suffix.mpr (List.suffix_append s t)

theorem trimSuf_append (s suf : GoStr) : trimSuf (s ++ suf) suf = s := by
  simp [trimSuf, endsWith_append, List.take_left]

theorem goSplit_sep_cons (sep : Char) (a b : GoStr) (h : sep ∉ a) :
    goSplit sep (a ++ sep :: b) = a :: goSplit sep b := by
  induction a with
  | nil => simp [goSplit]
  | cons c cs ih =>
    have hc : c ≠ sep := fun hcs => h (hcs ▸ List.mem_cons_self c cs)
    have hcs : sep ∉ cs := fun hm => h (List.mem_cons_of_mem c hm)
    have he : cs.append (sep :: b) = cs ++ sep :: b := rfl
    simp only [List.cons_append, goSplit, if_neg hc, he, ih hcs]

theorem goSplit_eq_self (sep : Char) (a : GoStr) (h : sep ∉ a) :
    goSplit sep a = [a] := by
  induction a with
  | nil => rfl
  | cons c cs ih =>
    have hc : c ≠ sep := fun hcs => h (hcs ▸ List.mem_cons_self c cs)
    have hcs : sep ∉ cs := fun hm => h (List.mem_cons_of_mem c hm)
    simp only [goSplit, if_neg hc, ih hcs]

theorem takeWhile_append_stop (p : Char → Bool) (a : GoStr) (c : Char)
    (b : GoStr) (ha : ∀ x ∈ a, p x = true) (hc : p c = false) :
    (a ++ c :: b).takeWhile p = a ∧ (a ++ c :: b).dropWhile p = c :: b := by
  induction a with
  | nil => simp [List.takeWhile, List.dropWhile, hc]
  | cons x xs ih =>
    have hx : p x = true := ha x (List.mem_cons_self x xs)
    have hxs : ∀ y ∈ xs, p y = true := fun y hy => ha y (List.mem_cons_of_mem x hy)
    obtain ⟨h1, h2⟩ := ih hxs
    simp [List.takeWhile, List.dropWhile, hx, h1, h2]

/-! ## Helper lemmas about `clean` -/

theorem cleanSegsAux_keeps_bottom_dd (rooted : Bool) (segs : List GoStr) :
    ∀ out pre, out = pre ++ [['.', '.']] →
      ∃ pre2, cleanSegsAux rooted out segs = pre2 ++ [['.', '.']] := by
  induction segs with
  | nil => intro out pre hout; exact ⟨pre, by simpa [cleanSegsAux] using hout⟩
  | cons seg rest ih =>
    intro out pre hout
    by_cases h1 : seg = [] ∨ seg = ['.']
    · rw [show cleanSegsAux rooted out (seg :: rest)
          = cleanSegsAux rooted out rest by simp [cleanSegsAux, h1]]
      exact ih out pre hout
    · by_cases h2 : seg = ['.', '.']
      · subst h2
        cases pre with
        | nil =>
          rw [show out = [['.', '.']] from hout]
          rw [show cleanSegsAux rooted [['.', '.']] (['.', '.'] :: rest)
              = cleanSegsAux rooted (['.', '.'] :: [['.', '.']]) rest by
            simp [cleanSegsAux, h1]]
          exact ih _ [['.', '.']] rfl
        | cons p ps =>
          subst hout
          by_cases h3 : p = ['.', '.']
          · rw [show cleanSegsAux rooted ((p :: ps) ++ [['.', '.']])
                  (['.', '.'] :: rest)
                = cleanSegsAux rooted
                    (['.', '.'] :: ((p :: ps) ++ [['.', '.']])) rest by
              simp [cleanSegsAux, h1, h3]]
            exact ih _ (['.', '.'] :: p :: ps) rfl
          · rw [show cleanSegsAux rooted ((p :: ps) ++ [['.', '.']])
                  (['.', '.'] :: rest)
                = cleanSegsAux rooted (ps ++ [['.', '.']]) rest by
              simp [cleanSegsAux, h1, h3]]
            exact ih _ ps rfl
      · rw [show cleanSegsAux rooted out (seg :: rest)
            = cleanSegsAux rooted (seg :: out) rest by
          simp [cleanSegsAux, h1, h2]]
        exact ih _ (seg :: pre) (by simp [hout])

theorem goJoin_cons_startsWith (sep : Char) (s : GoStr) (l : List GoStr) :
    ∃ t, goJoin sep (s :: l) = s ++ t := by
  cases l with
  | nil => exact ⟨[], by simp [goJoin]⟩
  | cons x xs => exact ⟨sep :: goJoin sep (x :: xs), rfl⟩

/-- A root with a leading parent-traversal segment cleans to a path that
begins (as a string) with two dots. -/
theorem clean_of_leadingDotDot (r : GoStr) (h : leadingDotDotSeg r = true) :
    startsWith (clean r) ['.', '.'] = true := by
  have hor : r = ['.', '.'] ∨ startsWith r ['.', '.', '/'] = true := by
    simpa [leadingDotDotSeg] using h
  rcases hor with h1 | h1
  · rw [h1]; decide
  · have hp : (['.', '.', '/'] : GoStr).isPrefixOf r = true := h1
    obtain ⟨u, hu⟩ := List.isPrefixOf_iff_prefix.mp hp
    subst hu
    have hsplit : goSplit '/' (['.', '.', '/'] ++ u)
        = ['.', '.'] :: goSplit '/' u := by
      have := goSplit_sep_cons '/' ['.', '.'] u (by decide)
      simpa using this
    have hclean : clean (['.', '.', '/'] ++ u)
        = (if (cleanSegsAux false [] (goSplit '/' (['.', '.', '/'] ++ u))).reverse = []
           then ['.']
           else goJoin '/'
             (cleanSegsAux false [] (goSplit '/' (['.', '.', '/'] ++ u))).reverse) := rfl
    obtain ⟨pre2, hout⟩ :=
      cleanSegsAux_keeps_bottom_dd false (goSplit '/' u) [['.', '.']] [] rfl
    have hstep : cleanSegsAux false [] (['.', '.'] :: goSplit '/' u)
        = cleanSegsAux false [['.', '.']] (goSplit '/' u) := rfl
    rw [hclean, hsplit, hstep, hout]
    simp only [List.reverse_append, List.reverse_cons, List.reverse_nil,
      List.nil_append, List.cons_append]
    obtain ⟨t2, ht2⟩ := goJoin_cons_startsWith '/' ['.', '.'] pre2.reverse
    simp only [List.cons_append, List.nil_append] at ht2
    simp only [reduceCtorEq, if_false, ht2]
    exact startsWith_append _ _

theorem startsWith_trans (s p q : GoStr) (h1 : startsWith s p = true)
    (h2 : startsWith p q = true) : startsWith s q = true := by
  simp only [startsWith, List.isPrefixOf_iff_prefix] at h1 h2 ⊢
  exact h2.trans h1

/-! ## Claim theorems -/

/-- C2: whenever the background compressor signals an error, the response
phase returns a Failure carrying that error, regardless of the HTTP status
(even 200), the body, the parsed body, or the terminal mode; the definition
of `interpretResponse` drains the channel before any status interpretation,
mirroring lines 217-219 of the handler. -/
theorem c2_compressor_error_takes_precedence (endpoint repo e : GoStr)
    (status : Nat) (body : GoStr) (parsed : Option Json) (tty : Bool) :
    interpretResponse endpoint repo (some e) status body parsed tty
      = .failure .compressorError e := rfl

/-- C8: a 401 response whose body contains, case-insensitively, the phrase
"must provide github_token" is classified as an auth-scope failure whose
fixed message instructs the user to pass a token via the
`-github-token` flag. -/
theorem c8_auth_scope_classification (endpoint repo body : GoStr)
    (parsed : Option Json) (tty : Bool)
    (h : containsSubstr (goToLower body) mustProvidePhrase = true) :
    interpretResponse endpoint repo none 401 body parsed tty
      = .failure .authScopeError githubTokenMsg ∧
    containsSubstr githubTokenMsg ("-github-token".toList) = true := by
  constructor
  · have h1 : (401 : Nat) < 200 ∨ 300 ≤ 401 := by omega
    simp only [interpretResponse, if_pos h1]
    rw [if_pos ⟨trivial, h⟩]
  · decide

/-- Witness for C8 at a concrete upper-case body. -/
theorem c8_auth_scope_classification_witness :
    interpretResponse [] [] none 401 ("You MUST PROVIDE GITHUB_TOKEN here".toList)
        none false
      = .failure .authScopeError githubTokenMsg :=
  (c8_auth_scope_classification [] [] ("You MUST PROVIDE GITHUB_TOKEN here".toList)
    none false (by decide)).1

/-- C9: when the `root` flag was set on the command line with the empty
value, the root is not derived from the dump file's directory: the empty
value is cleaned (`Clean` of the empty string is a dot) and collapses to the
empty string, targeting the repository root; the explicitly-set flag value
is always the one normalized; derivation from the workspace happens exactly
when the flag is absent from the visited set. -/
theorem c9_explicit_empty_root_flag (v d : GoStr) :
    resolveRoot [("root".toList)] [] d = .ok [] ∧
    resolveRoot [("root".toList)] v d = normalizeRoot v ∧
    resolveRoot [] v d = normalizeRoot d ∧
    clean [] = ['.'] ∧
    normalizeRoot [] = .ok [] :=
  ⟨rfl, rfl, rfl, rfl, rfl⟩

/-- C10: the escape check of line 135 is a plain string-prefix test on the
cleaned root: every root whose cleaned form begins with the two characters
`..` is rejected, including names such as `..foo` that contain no
parent-traversal segment. -/
theorem c10_prefix_test_rejects_dotdot_names :
    (∀ r, startsWith (clean r) ['.', '.'] = true →
        normalizeRoot r = .error (clean r)) ∧
    normalizeRoot ("..foo".toList) = .error ("..foo".toList) ∧
    leadingDotDotSeg ("..foo".toList) = false ∧
    clean ("..foo".toList) = ("..foo".toList) := by
  refine ⟨fun r h => ?_, by decide, by decide, by decide⟩
  simp only [normalizeRoot, h]
  rfl

/-- Witness for C10's universal part at the concrete root `../x`. -/
theorem c10_prefix_test_rejects_dotdot_names_witness :
    normalizeRoot ("../x".toList) = .error (clean ("../x".toList)) :=
  c10_prefix_test_rejects_dotdot_names.1 ("../x".toList) (by decide)

/-- C5: project-root normalization maps a dot and a slash to the empty
string; every input with a leading parent-traversal segment is rejected with
a validation error, and then the request (and with it any network activity)
is never built; a root that survives normalization never begins with a
parent-traversal segment. -/
theorem c5_root_normalization :
    normalizeRoot ['.'] = .ok [] ∧
    normalizeRoot ['/'] = .ok [] ∧
    (∀ r, leadingDotDotSeg r = true → normalizeRoot r = .error (clean r)) ∧
    (∀ repo commit token idx r, leadingDotDotSeg r = true →
        buildUploadRequest repo commit token idx r = .error (clean r)) ∧
    (∀ r s, normalizeRoot r = .ok s → leadingDotDotSeg s = false) := by
  have hrej : ∀ r, leadingDotDotSeg r = true → normalizeRoot r = .error (clean r) := by
    intro r h
    have := clean_of_leadingDotDot r h
    simp only [normalizeRoot, this]
    rfl
  refine ⟨by decide, by decide, hrej, ?_, ?_⟩
  · intro repo commit token idx r h
    rw [buildUploadRequest, hrej r h]
    rfl
  · intro r s h
    by_cases hpre : startsWith (clean r) ['.', '.'] = true
    · simp [normalizeRoot, hpre] at h
    · simp only [normalizeRoot, hpre, Bool.false_eq_true, if_false,
        Except.ok.injEq] at h
      by_cases hcoll : clean r = ['.'] ∨ clean r = ['/']
      · rw [if_pos hcoll] at h; subst h; decide
      · rw [if_neg hcoll] at h
        subst h
        by_contra hld
        have hld2 : leadingDotDotSeg (clean r) = true := by
          revert hld; cases leadingDotDotSeg (clean r) <;> simp
        have hor : clean r = ['.', '.'] ∨ startsWith (clean r) ['.', '.', '/'] = true := by
          simpa [leadingDotDotSeg] using hld2
        rcases hor with h1 | h1
        · exact hpre (by rw [h1]; decide)
        · exact hpre (startsWith_trans _ _ _ h1 (by decide))

/-- Witness for C5's universal parts at the concrete root `../x`. -/
theorem c5_root_normalization_witness :
    normalizeRoot ("../x".toList) = .error (clean ("../x".toList)) ∧
    buildUploadRequest [] [] [] [] ("../x".toList) = .error (clean ("../x".toList)) ∧
    leadingDotDotSeg [] = false :=
  ⟨c5_root_normalization.2.2.1 ("../x".toList) (by decide),
   c5_root_normalization.2.2.2.1 [] [] [] [] ("../x".toList) (by decide),
   c5_root_normalization.2.2.2.2 ['.'] [] (by decide)⟩

/-- C6 counterexample: with an empty commit value (and empty optional
values), the constructed query still contains the `commit` parameter — the
code adds `repository` and `commit` unconditionally, so a parameter with an
empty source value is not always omitted. -/
theorem c6_empty_commit_still_included :
    queryKeys (buildQuery ("github.com/gorilla/mux".toList) [] [] [] [])
        = [("repository".toList), ("commit".toList)] ∧
    (("commit".toList) ∈
        queryKeys (buildQuery ("github.com/gorilla/mux".toList) [] [] [] [])) := by
  constructor
  · decide
  · decide

/-- C6 (amended): the optional parameters `github_token`, `root` and
`indexerName` are present exactly when their source values are non-empty,
while `repository` and `commit` are always present (even when empty); no
other key ever appears. -/
theorem c6_query_key_presence (repo commit token root idx : GoStr) :
    (("repository".toList) ∈ queryKeys (buildQuery repo commit token root idx)) ∧
    (("commit".toList) ∈ queryKeys (buildQuery repo commit token root idx)) ∧
    ((("github_token".toList) ∈ queryKeys (buildQuery repo commit token root idx))
        ↔ token ≠ []) ∧
    ((("root".toList) ∈ queryKeys (buildQuery repo commit token root idx))
        ↔ root ≠ []) ∧
    ((("indexerName".toList) ∈ queryKeys (buildQuery repo commit token root idx))
        ↔ idx ≠ []) ∧
    (queryKeys (buildQuery repo commit token root idx)).all
        (fun k => k ∈ [("repository".toList), ("commit".toList),
          ("github_token".toList), ("root".toList), ("indexerName".toList)])
      = true := by
  by_cases ht : token = [] <;> by_cases hr : root = [] <;> by_cases hi : idx = [] <;>
    simp [queryKeys, buildQuery, ht, hr, hi] <;> decide

/-- Witness for C6's amended statement: the token-presence equivalence
applied at concrete values. -/
theorem c6_query_key_presence_witness :
    ("github_token".toList) ∈
      queryKeys (buildQuery ("r".toList) ("c".toList) ("t".toList) [] []) :=
  (c6_query_key_presence ("r".toList) ("c".toList) ("t".toList) [] []).2.2.1.mpr
    (by decide)

/-- C4 counterexample: the remote `github.com/gorilla/mux` matches neither
recognized form — it has no `git@` prefix, no at-sign and no
scheme-separator — yet repository-name resolution succeeds (the permissive
URL parser returns it as a bare path), rather than failing with a
resolution error. -/
theorem c4_nonmatching_remote_accepted :
    parseRemoteURL ("github.com/gorilla/mux".toList)
        = .ok ("github.com/gorilla/mux".toList) ∧
    startsWith ("github.com/gorilla/mux".toList) ("git@".toList) = false ∧
    ('@' ∉ ("github.com/gorilla/mux".toList)) ∧
    containsSubstr ("github.com/gorilla/mux".toList) ("://".toList) = false := by
  refine ⟨by decide, by decide, by decide, by decide⟩

/-- C4 (amended): resolution fails on a `git@`-prefixed remote exactly when
splitting on colons does not give two parts; a remote that matches neither
form is not in general rejected — whatever the URL parser accepts is
returned as hostname plus path (for example `github.com/gorilla/mux` is
returned unchanged). -/
theorem c4_resolution_error_cases :
    (∀ u, startsWith u ("git@".toList) = true → (goSplit ':' u).length ≠ 2 →
        parseRemoteURL u = .error u) ∧
    (∀ u url, startsWith u ("git@".toList) = false → urlParse u = some url →
        parseRemoteURL u
          = .ok (hostnameOf url.host ++ trimSuf url.path (".git".toList))) ∧
    parseRemoteURL ("github.com/gorilla/mux".toList)
        = .ok ("github.com/gorilla/mux".toList) := by
  refine ⟨fun u h1 h2 => ?_, fun u url h1 h2 => ?_, by decide⟩
  · rw [parseRemoteURL, if_pos h1]
    match hs : goSplit ':' u with
    | [] => rfl
    | [a] => rfl
    | [a, b] => rw [hs] at h2; simp at h2
    | a :: b :: c :: rest => rfl
  · rw [parseRemoteURL, if_neg (by simp only [h1]; decide), h2]

/-- Witness for C4's amended statement at concrete remotes. -/
theorem c4_resolution_error_cases_witness :
    parseRemoteURL ("git@host".toList) = .error ("git@host".toList) ∧
    parseRemoteURL ("git@a:b:c".toList) = .error ("git@a:b:c".toList) :=
  ⟨c4_resolution_error_cases.1 ("git@host".toList) (by decide) (by decide),
   c4_resolution_error_cases.1 ("git@a:b:c".toList) (by decide) (by decide)⟩

/-! ## Lemmas for the remote-URL theorems -/

theorem getSchemeAux_scheme_run (orig : GoStr) :
    ∀ (S acc rest : GoStr), acc ≠ [] → (∀ c ∈ S, isSchemeChar c = true) →
      getSchemeAux orig acc (S ++ ':' :: rest) = some (acc.reverse ++ S, rest) := by
  intro S
  induction S with
  | nil =>
    intro acc rest hacc _
    simp [getSchemeAux, hacc]
  | cons c cs ih =>
    intro acc rest hacc hS
    have hc : isSchemeChar c = true := hS c (List.mem_cons_self c cs)
    have hcs : ∀ x ∈ cs, isSchemeChar x = true :=
      fun x hx => hS x (List.mem_cons_of_mem c hx)
    have hcolon : c ≠ ':' := by
      intro hc2; rw [hc2] at hc; exact absurd hc (by decide)
    rw [List.cons_append]
    by_cases ha : isAsciiAlpha c = true
    · rw [show getSchemeAux orig acc (c :: (cs ++ ':' :: rest))
          = getSchemeAux orig (c :: acc) (cs ++ ':' :: rest) by
        simp [getSchemeAux, hcolon, ha]]
      rw [ih (c :: acc) rest (by simp) hcs]
      simp
    · have hd : (isAsciiDigit c || c = '+' || c = '-' || c = '.') = true := by
        have := hc
        simp only [isSchemeChar, Bool.or_eq_true] at this
        rcases this with (((h | h) | h) | h) | h
        · exact absurd h ha
        · simp [h]
        · simp [h]
        · simp [h]
        · simp [h]
      rw [show getSchemeAux orig acc (c :: (cs ++ ':' :: rest))
          = getSchemeAux orig (c :: acc) (cs ++ ':' :: rest) by
        simp [getSchemeAux, hcolon, ha, hacc, hd]]
      rw [ih (c :: acc) rest (by simp) hcs]
      simp

/-- Scheme extraction on a well-formed `scheme:rest` input. -/
theorem getScheme_of_scheme (a : Char) (S rest : GoStr)
    (ha : isAsciiAlpha a = true) (hS : ∀ c ∈ S, isSchemeChar c = true) :
    getScheme ((a :: S) ++ ':' :: rest) = some (a :: S, rest) := by
  have hcolon : a ≠ ':' := by
    intro h2; rw [h2] at ha; exact absurd ha (by decide)
  rw [getScheme, List.cons_append,
    show getSchemeAux (a :: (S ++ ':' :: rest)) [] (a :: (S ++ ':' :: rest))
      = getSchemeAux (a :: (S ++ ':' :: rest)) [a] (S ++ ':' :: rest) by
        simp [getSchemeAux, hcolon, ha],
    getSchemeAux_scheme_run _ S [a] rest (by simp) hS]
  simp

/-- A URL-style remote never carries the `git@` prefix: its fourth character
(where the at-sign would sit) is a scheme character, a colon or a slash. -/
theorem url_input_no_gitat (a : Char) (S T : GoStr)
    (ha : isAsciiAlpha a = true) (hS : ∀ c ∈ S, isSchemeChar c = true) :
    startsWith ((a :: S) ++ ':' :: '/' :: '/' :: T) ("git@".toList) = false := by
  by_contra hb
  have hb2 : startsWith ((a :: S) ++ ':' :: '/' :: '/' :: T) ("git@".toList) = true := by
    revert hb; cases startsWith ((a :: S) ++ ':' :: '/' :: '/' :: T) ("git@".toList) <;> simp
  have hpre := List.isPrefixOf_iff_prefix.mp hb2
  obtain ⟨t, ht⟩ := hpre
  match S, ht with
  | [], ht => simp [List.cons_append] at ht
  | [b], ht => simp [List.cons_append] at ht
  | [b, c], ht => simp [List.cons_append] at ht
  | b :: c :: d :: S4, ht =>
    have ht2 : ('g' :: 'i' :: 't' :: '@' :: t : GoStr)
        = a :: b :: c :: d :: (S4 ++ ':' :: '/' :: '/' :: T) := ht
    simp only [List.cons.injEq] at ht2
    have hd : d = '@' := ht2.2.2.2.1.symm
    have hsc : isSchemeChar d = true := hS d (by simp)
    rw [hd] at hsc
    exact absurd hsc (by decide)

/-- Characters that keep a host inside the faithfully modelled class of
`net/url.Parse` inputs: no control bytes, no authority or path delimiters,
no query, fragment, escape or bracket characters. -/
def hostSafe (c : Char) : Bool :=
  !isCtlChar c && c ≠ '/' && c ≠ ':' && c ≠ '@' && c ≠ '?' && c ≠ '#'
    && c ≠ '%' && c ≠ '[' && c ≠ ']'

/-- Characters that keep a path inside the faithfully modelled class. -/
def pathSafe (c : Char) : Bool :=
  !isCtlChar c && c ≠ '?' && c ≠ '#' && c ≠ '%'

theorem schemeChar_not_ctl (c : Char) (h : isSchemeChar c = true) :
    isCtlChar c = false := by
  simp only [isSchemeChar, isAsciiAlpha, isAsciiDigit, Bool.or_eq_true,
    Bool.and_eq_true, decide_eq_true_eq] at h
  simp only [isCtlChar, Bool.or_eq_false_iff, decide_eq_false_iff_not, not_lt]
  rcases h with (((h | h) | h) | h) | h
  · rcases h with h | h <;> omega
  · omega
  · rw [h]; decide
  · rw [h]; decide
  · rw [h]; decide

theorem alpha_schemeChar (c : Char) (h : isAsciiAlpha c = true) :
    isSchemeChar c = true := by
  simp [isSchemeChar, h]

theorem hostSafe_not_ctl (c : Char) (h : hostSafe c = true) :
    isCtlChar c = false := by
  simp only [hostSafe, Bool.and_eq_true, Bool.not_eq_true'] at h
  exact h.1.1.1.1.1.1.1.1

theorem pathSafe_not_ctl (c : Char) (h : pathSafe c = true) :
    isCtlChar c = false := by
  simp only [pathSafe, Bool.and_eq_true, Bool.not_eq_true'] at h
  exact h.1.1.1

/-- Computation of afterLastAt on an authority with no at-sign. -/
theorem afterLastAt_no_at (auth : GoStr) (h : '@' ∉ auth) :
    afterLastAt auth = auth := by
  simp only [afterLastAt, goSplit_eq_self '@' auth h, List.getLastD,
    List.getLast_singleton]

/-- Computation of the URL parser on a well-formed
`scheme://host/path` input. -/
theorem urlParse_wellformed (a : Char) (S H Q : GoStr)
    (ha : isAsciiAlpha a = true) (hS : ∀ c ∈ S, isSchemeChar c = true)
    (hH : ∀ c ∈ H, hostSafe c = true) (hQ : ∀ c ∈ Q, pathSafe c = true) :
    urlParse ((a :: S) ++ ':' :: '/' :: '/' :: (H ++ '/' :: Q))
      = some ⟨a :: S, H, '/' :: Q⟩ := by
  have hctl : ((a :: S) ++ ':' :: '/' :: '/' :: (H ++ '/' :: Q)).any
      isCtlChar = false := by
    rw [List.any_eq_false]
    intro c hc
    rw [Bool.not_eq_true]
    simp only [List.cons_append, List.mem_append, List.mem_cons] at hc
    rcases hc with hc | hc | hc | hc | hc | hc | hc | hc
    · rw [hc]; exact schemeChar_not_ctl a (alpha_schemeChar a ha)
    · exact schemeChar_not_ctl c (hS c hc)
    · rw [hc]; decide
    · rw [hc]; decide
    · rw [hc]; decide
    · exact hostSafe_not_ctl c (hH c hc)
    · rw [hc]; decide
    · exact pathSafe_not_ctl c (hQ c hc)
  have hscheme : getScheme ((a :: S) ++ ':' :: '/' :: '/' :: (H ++ '/' :: Q))
      = some (a :: S, '/' :: '/' :: (H ++ '/' :: Q)) :=
    getScheme_of_scheme a S _ ha hS
  have hHslash : ∀ x ∈ H, (x ≠ '/' : Bool) = true := by
    intro x hx
    have hx2 := hH x hx
    simp only [hostSafe, Bool.and_eq_true] at hx2
    simpa using hx2.1.1.1.1.1.1.1.2
  obtain ⟨htake, hdrop⟩ :=
    takeWhile_append_stop (fun x => x ≠ '/') H '/' Q hHslash (by simp)
  have hauth : parseAuthority H = some H := by
    have hat : '@' ∉ H := by
      intro hm
      have hm2 := hH '@' hm
      simp [hostSafe] at hm2
    have hcolH : ':' ∉ H := by
      intro hm
      have hm2 := hH ':' hm
      simp [hostSafe] at hm2
    rw [parseAuthority]
    simp only [afterLastAt_no_at H hat]
    rw [if_neg hcolH]
  rw [urlParse, if_neg (by simp only [hctl]; decide), hscheme]
  simp only []
  rw [if_neg (by simp [startsWith, List.isPrefixOf])]
  rw [if_pos (by simp [startsWith, List.isPrefixOf])]
  simp only [List.drop_succ_cons, List.drop_zero, htake, hdrop, hauth]

/-- C3: repository-name resolution maps a well-formed SSH-style remote
`git@H:P.git` (host and path free of colons, path not starting with a
slash) to `H/P`, and a well-formed URL-style remote `scheme://H/P.git`
(scheme a letter followed by scheme characters, host and path inside the
modelled `net/url` input class) to `H/P`: the scheme is stripped and the
`.git` suffix removed. -/
theorem c3_remote_name_resolution :
    (∀ H P : GoStr, ':' ∉ H → ':' ∉ P → startsWith P ['/'] = false →
        parseRemoteURL (("git@".toList) ++ H ++ ':' :: (P ++ (".git".toList)))
          = .ok (H ++ '/' :: P)) ∧
    (∀ (a : Char) (S H P : GoStr), isAsciiAlpha a = true →
        (∀ c ∈ S, isSchemeChar c = true) → (∀ c ∈ H, hostSafe c = true) →
        (∀ c ∈ P, pathSafe c = true) →
        parseRemoteURL
            ((a :: S) ++ ':' :: '/' :: '/' :: (H ++ '/' :: (P ++ (".git".toList))))
          = .ok (H ++ '/' :: P)) := by
  constructor
  · intro H P hH hP hPslash
    have hmem : ':' ∉ ("git@".toList) ++ H := by
      intro hm
      rcases List.mem_append.mp hm with hm | hm
      · revert hm; decide
      · exact hH hm
    have hmem2 : ':' ∉ P ++ (".git".toList) := by
      intro hm
      rcases List.mem_append.mp hm with hm | hm
      · exact hP hm
      · revert hm; decide
    have hpre : startsWith ((("git@".toList) ++ H) ++ ':' :: (P ++ (".git".toList)))
        ("git@".toList) = true :=
      startsWith_trans _ _ _ (startsWith_append _ _) (startsWith_append _ _)
    rw [parseRemoteURL, if_pos hpre,
      goSplit_sep_cons ':' _ _ hmem, goSplit_eq_self ':' _ hmem2]
    simp only []
    rw [trimPre_append, trimSuf_append, trimPre, if_neg (by simp [hPslash])]
  · intro a S H P ha hS hH hP
    have hdotgit : (".git".toList : GoStr) = ['.', 'g', 'i', 't'] := rfl
    have hQ : ∀ c ∈ P ++ (".git".toList), pathSafe c = true := by
      intro c hc
      rcases List.mem_append.mp hc with hc | hc
      · exact hP c hc
      · rw [hdotgit] at hc
        simp only [List.mem_cons, List.not_mem_nil, or_false] at hc
        rcases hc with hc | hc | hc | hc <;> (rw [hc]; decide)
    have hcolH : ':' ∉ H := by
      intro hm
      have hm2 := hH ':' hm
      simp [hostSafe] at hm2
    have hurl := urlParse_wellformed a S H (P ++ (".git".toList)) ha hS hH hQ
    have hgitat := url_input_no_gitat a S (H ++ '/' :: (P ++ (".git".toList))) ha hS
    rw [parseRemoteURL, if_neg (by simp only [hgitat]; decide), hurl]
    simp only []
    have hhost : hostnameOf H = H := by rw [hostnameOf, if_neg hcolH]
    have htrim : trimSuf ('/' :: (P ++ (".git".toList))) (".git".toList)
        = '/' :: P := by
      have he : ('/' :: P) ++ (".git".toList) = '/' :: (P ++ (".git".toList)) := rfl
      rw [← he, trimSuf_append]
    rw [hhost, htrim]

/-- Witness for C3 at the remotes of the specification's example. -/
theorem c3_remote_name_resolution_witness :
    parseRemoteURL ("git@github.com:gorilla/mux.git".toList)
        = .ok ("github.com/gorilla/mux".toList) ∧
    parseRemoteURL ("https://github.com/gorilla/mux.git".toList)
        = .ok ("github.com/gorilla/mux".toList) := by
  constructor
  · have h := c3_remote_name_resolution.1 ("github.com".toList)
      ("gorilla/mux".toList) (by decide) (by decide) (by decide)
    have e1 : ("git@github.com:gorilla/mux.git".toList : GoStr)
        = ("git@".toList) ++ ("github.com".toList)
            ++ ':' :: (("gorilla/mux".toList) ++ (".git".toList)) := by decide
    have e2 : ("github.com/gorilla/mux".toList : GoStr)
        = ("github.com".toList) ++ '/' :: ("gorilla/mux".toList) := by decide
    rw [e1, e2]
    exact h
  · have h := c3_remote_name_resolution.2 'h' ("ttps".toList)
      ("github.com".toList) ("gorilla/mux".toList)
      (by decide) (by decide) (by decide) (by decide)
    have e1 : ("https://github.com/gorilla/mux.git".toList : GoStr)
        = ('h' :: ("ttps".toList)) ++ ':' :: '/' :: '/'
            :: (("github.com".toList)
              ++ '/' :: (("gorilla/mux".toList) ++ (".git".toList))) := by decide
    have e2 : ("github.com/gorilla/mux".toList : GoStr)
        = ("github.com".toList) ++ '/' :: ("gorilla/mux".toList) := by decide
    rw [e1, e2]
    exact h

/-- C1 counterexample: a 200 response whose body is the valid JSON object
with no `id` member still produces a Success outcome (the decoder leaves the
id zeroed), so Success does not hold exactly when the body is valid JSON
with an `id` field, and a 2xx body that is valid JSON without the field does
not fail with a parse error. -/
theorem c1_success_without_id_field :
    jsonHasIdField (Json.obj []) = false ∧
    (interpretResponse ("https://sourcegraph.example".toList)
          ("github.com/gorilla/mux".toList) none 200 []
          (some (Json.obj [])) false).isSuccess = true ∧
    interpretResponse ("https://sourcegraph.example".toList)
          ("github.com/gorilla/mux".toList) none 200 []
          (some (Json.obj [])) false
        ≠ .failure .parseError [] := by
  refine ⟨by decide, by decide, by decide⟩

/-- C1 (amended): for a 2xx status with no compressor error, the outcome is
Success exactly when the payload decoder accepts the body (valid JSON that
is null or an object whose `id` members, matched case-insensitively, are
strings or nulls — the field may be absent, decoding as the empty id);
every other body yields the parse failure.  On success the status-page URL
is composed of the endpoint, the repository name, the fixed settings path
and the non-empty base64-URL-encoded type-tagged upload id. -/
theorem c1_response_2xx_interpretation (endpoint repo body : GoStr)
    (status : Nat) (tty : Bool) (p : Option Json)
    (h1 : 200 ≤ status) (h2 : status < 300) :
    ((interpretResponse endpoint repo none status body p tty).isSuccess
        = payloadDecodes p) ∧
    (payloadDecodes p = false →
        interpretResponse endpoint repo none status body p tty
          = .failure .parseError []) ∧
    (∀ j id, p = some j → unmarshalPayload j = .ok id →
        interpretResponse endpoint repo none status body p tty
          = .success id (endpoint ++ '/' :: repo
              ++ ("/-/settings/code-intelligence/lsif-uploads/".toList)
              ++ encodeUploadId id)) ∧
    (∀ id, encodeUploadId id ≠ []) := by
  have hcond : ¬ (status < 200 ∨ 300 ≤ status) := by omega
  have hmain : interpretResponse endpoint repo none status body p tty
      = interpretSuccessBody endpoint repo p := by
    rw [interpretResponse]
    simp only [if_neg hcond]
  have hnonempty : ∀ id : GoStr, encodeUploadId id ≠ [] := by
    intro id
    rw [encodeUploadId, uploadTagBytes]
    rw [show (("LSIFUpload:\"".toList) ++ id ++ ['"']).map Char.toNat
        = 76 :: ((("SIFUpload:\"".toList) ++ id ++ ['"']).map Char.toNat) from rfl]
    match hm : (("SIFUpload:\"".toList) ++ id ++ ['"']).map Char.toNat with
    | [] => simp [base64url]
    | [b2] => simp [base64url]
    | b2 :: b3 :: rest => simp [base64url]
  refine ⟨?_, ?_, ?_, hnonempty⟩
  · rw [hmain]
    match p with
    | none => rfl
    | some j =>
      rw [interpretSuccessBody]
      match hj : unmarshalPayload j with
      | .error e => simp [payloadDecodes, hj, UploadOutcome.isSuccess, Except.toBool]
      | .ok id => simp [payloadDecodes, hj, UploadOutcome.isSuccess, Except.toBool]
  · intro hdec
    rw [hmain]
    match p with
    | none => rfl
    | some j =>
      rw [interpretSuccessBody]
      match hj : unmarshalPayload j with
      | .error e => rfl
      | .ok id => simp [payloadDecodes, hj, Except.toBool] at hdec
  · intro j id hp hj
    subst hp
    simp only [hmain, interpretSuccessBody, hj, mkUploadURL]

/-- Witness for C1's amended statement at the specification's example body,
a 200 status and the id `abc`. -/
theorem c1_response_2xx_interpretation_witness :
    interpretResponse ("https://sourcegraph.example".toList)
        ("github.com/gorilla/mux".toList) none 200 []
        (some (Json.obj [(("id".toList), Json.str ("abc".toList))])) false
      = .success ("abc".toList)
          (("https://sourcegraph.example".toList)
            ++ '/' :: ("github.com/gorilla/mux".toList)
            ++ ("/-/settings/code-intelligence/lsif-uploads/".toList)
            ++ encodeUploadId ("abc".toList)) :=
  (c1_response_2xx_interpretation ("https://sourcegraph.example".toList)
      ("github.com/gorilla/mux".toList) [] 200 false
      (some (Json.obj [(("id".toList), Json.str ("abc".toList))]))
      (by decide) (by decide)).2.2.1
    (Json.obj [(("id".toList), Json.str ("abc".toList))]) ("abc".toList)
    rfl (by decide)

/-! ## Lemmas for the gzip round trip -/

theorem readLe16_le16 (n : Nat) (r : List Nat) (h : n ≤ 65535) :
    readLe16 (n % 256 :: n / 256 % 256 :: r) = some (n, r) := by
  simp only [readLe16, Option.some.injEq, Prod.mk.injEq]
  refine ⟨?_, trivial⟩
  have h2 : n / 256 < 256 := by omega
  rw [Nat.mod_eq_of_lt h2]
  omega

theorem take_append_self {α : Type} (a b : List α) : (a ++ b).take a.length = a := by
  simp [List.take_append]

theorem drop_append_self {α : Type} (a b : List α) : (a ++ b).drop a.length = b := by
  simp [List.drop_append]

theorem inflate_deflateAux :
    ∀ (fuelD : Nat) (xs tail : List Nat) (fuelI : Nat),
      xs.length < fuelD → xs.length < fuelI →
      inflateStored fuelI (deflateStoredAux fuelD xs ++ tail) = some (xs, tail) := by
  intro fuelD
  induction fuelD with
  | zero => intro xs tail fuelI h1 _; omega
  | succ fd ih =>
    intro xs tail fuelI h1 h2
    match fuelI, h2 with
    | fi + 1, h2 =>
      by_cases hlen : xs.length ≤ 65535
      · rw [show deflateStoredAux (fd + 1) xs
            = 1 :: (le16 xs.length ++ le16 (65535 - xs.length) ++ xs) by
          rw [deflateStoredAux, if_pos hlen]]
        rw [show (1 :: (le16 xs.length ++ le16 (65535 - xs.length) ++ xs)) ++ tail
            = 1 :: (xs.length % 256 :: xs.length / 256 % 256
                :: ((65535 - xs.length) % 256 :: (65535 - xs.length) / 256 % 256
                  :: (xs ++ tail))) by simp [le16]]
        rw [inflateStored]
        rw [readLe16_le16 xs.length _ hlen]
        simp only []
        rw [readLe16_le16 (65535 - xs.length) _ (by omega)]
        simp only []
        rw [if_neg (by simp)]
        rw [if_neg (by simp only [List.length_append, not_lt]; omega)]
        rw [if_pos trivial]
        rw [take_append_self, drop_append_self]
      · rw [show deflateStoredAux (fd + 1) xs
            = 0 :: (le16 65535 ++ le16 0 ++ xs.take 65535
                ++ deflateStoredAux fd (xs.drop 65535)) by
          rw [deflateStoredAux, if_neg hlen]]
        rw [show (0 :: (le16 65535 ++ le16 0 ++ xs.take 65535
              ++ deflateStoredAux fd (xs.drop 65535))) ++ tail
            = 0 :: (65535 % 256 :: 65535 / 256 % 256
                :: (0 % 256 :: 0 / 256 % 256
                  :: (xs.take 65535 ++ (deflateStoredAux fd (xs.drop 65535) ++ tail)))) by
          simp [le16]]
        rw [inflateStored]
        rw [readLe16_le16 65535 _ (by omega)]
        simp only []
        rw [readLe16_le16 0 _ (by omega)]
        simp only []
        have htklen : (xs.take 65535).length = 65535 := by
          simp only [List.length_take]
          omega
        rw [if_neg (by omega)]
        rw [if_neg (by
          simp only [List.length_append, htklen, not_lt]
          omega)]
        rw [if_neg (by decide), if_pos trivial]
        have hd := drop_append_self (xs.take 65535)
          (deflateStoredAux fd (xs.drop 65535) ++ tail)
        rw [htklen] at hd
        rw [hd]
        rw [ih (xs.drop 65535) tail fi (by simp only [List.length_drop]; omega)
          (by simp only [List.length_drop]; omega)]
        simp only []
        have ht2 := take_append_self (xs.take 65535)
          (deflateStoredAux fd (xs.drop 65535) ++ tail)
        rw [htklen] at ht2
        rw [ht2]
        simp [List.take_append_drop]

theorem deflateStoredAux_length_ge :
    ∀ (fuelD : Nat) (xs : List Nat), xs.length < fuelD →
      xs.length ≤ (deflateStoredAux fuelD xs).length := by
  intro fuelD
  induction fuelD with
  | zero => intro xs h; omega
  | succ fd ih =>
    intro xs h
    by_cases hlen : xs.length ≤ 65535
    · rw [deflateStoredAux, if_pos hlen]
      simp only [List.length_cons, List.length_append, le16]
      omega
    · rw [deflateStoredAux, if_neg hlen]
      have := ih (xs.drop 65535) (by simp [List.length_drop]; omega)
      simp only [List.length_cons, List.length_append, le16, List.length_take,
        List.length_drop] at this ⊢
      omega

/-- C7: decompressing the stream produced by the streaming compressor
yields the original input, byte for byte; the compressor's error signal is
clear in the error-free run.  (The gzip codec itself is external to the
repository and is modelled from the spec as a stored-block gzip stream.) -/
theorem c7_gzip_roundtrip (input : List Nat) :
    gzipDecompress ((gzipReaderModel input).1) = some input ∧
    (gzipReaderModel input).2 = none := by
  refine ⟨?_, rfl⟩
  show gzipDecompress (gzipCompress input) = some input
  rw [gzipCompress, gzipDecompress]
  rw [if_pos (by
    rw [List.isPrefixOf_iff_prefix, List.append_assoc, List.append_assoc]
    exact List.prefix_append _ _)]
  have hdrop : (gzipHeader ++ deflateStored input ++ le32 (crc32 input)
      ++ le32 input.length).drop 10
      = deflateStored input ++ (le32 (crc32 input) ++ le32 input.length) := by
    rw [show (10 : Nat) = gzipHeader.length from rfl, List.append_assoc,
      List.append_assoc, drop_append_self]
  rw [hdrop]
  have hlen : input.length
      < (gzipHeader ++ deflateStored input ++ le32 (crc32 input)
          ++ le32 input.length).length + 1 := by
    have h1 := deflateStoredAux_length_ge (input.length + 1) input (by omega)
    rw [deflateStored] at *
    simp only [List.length_append]
    omega
  rw [deflateStored,
    inflate_deflateAux (input.length + 1) input _ _ (by omega)
      (by rw [deflateStored] at hlen; exact hlen)]
  simp

end LsifUpload
